import Mathlib

/-!
# claude-code-publish — verification of the conversation/archive engine

Shallow embedding of the core data flow of `claude_code_transcripts/__init__.py`:
session-file normalization (`parse_session_file`, `_parse_jsonl_file`), session
discovery (`find_local_sessions`), conversation grouping and tool-result linking
(`generate_html`), the prompt/commit timeline, and pagination.

Modelling conventions:
* JSON dicts that the code probes with `.get` are embedded as structures whose
  fields carry the `.get` defaults; a message value that is a missing or empty
  dict (falsy in Python) is `Option.none`.
* Python strings are Lean `String`s; character-level helpers over `String.data`
  mirror Python's `str.strip` truthiness, `str.startswith`, `str.lower` and
  single-character `str.replace`, so that all definitions evaluate by `decide`.
* Python's stable `list.sort(key=...)` is embedded as a stable insertion sort
  (`ssort`), proved to be a sorted, stable permutation.
* External collaborators (Jinja macros, markdown rendering) are out of scope per
  the spec; rendering functions take them as an explicit `RenderEnv` parameter.
* The commit-detection regex `COMMIT_PATTERN` is abstracted as a parameter
  `detect : String → List (String × String)` returning the (hash, message)
  matches found in a string tool result.
-/

/-- Python `content.strip()` used as a truth value: a string strips to a
non-empty string iff it contains a non-whitespace character. -/
def strippedNonempty (s : String) : Bool :=
  s.data.any (fun c => !c.isWhitespace)

/-- Python `s.startswith(pre)`. -/
def pyStartsWith (s pre : String) : Bool :=
  pre.data.isPrefixOf s.data

/-- Python `s.lower()` (character-wise; enough for the ASCII markers used). -/
def pyLower (s : String) : String :=
  String.mk (s.data.map Char.toLower)

/-- Lexicographic code-point comparison of character lists: Python's `<=` on
strings, the comparison underlying `list.sort(key=lambda x: x[0])`. -/
def charListLe : List Char → List Char → Bool
  | [], _ => true
  | _ :: _, [] => false
  | a :: as, b :: bs => if a < b then true else if b < a then false else charListLe as bs

/-- Stable insertion of `x` into `l`: `x` goes in front of the first element it
compares `le` to, hence after every earlier element with an equal key. -/
def sinsert (le : α → α → Bool) (x : α) : List α → List α
  | [] => [x]
  | y :: ys => if le x y then x :: y :: ys else y :: sinsert le x ys

/-- Stable sort (model of Python's stable `list.sort`). -/
def ssort (le : α → α → Bool) : List α → List α
  | [] => []
  | x :: xs => sinsert le x (ssort le xs)

/-- A content block, embedding the tagged dicts of the session log. Fields
default to the `.get(..., default)` values that the code uses; `content` is
`some s` when the block's `content` entry is the string `s` and `none` when it
is absent or structured (non-string). -/
structure Block where
  type : String := ""
  id : String := ""
  name : String := ""
  tool_use_id : String := ""
  content : Option String := none
  text : String := ""
deriving DecidableEq, Repr

/-- `MessageBody.content`: a plain string or a sequence of blocks. -/
inductive Content
  | str (s : String)
  | blocks (bs : List Block)
deriving DecidableEq, Repr

/-- A normalized log entry. `message = none` embeds a missing or empty (falsy)
message dict; a dict that lacks the `content` key is `some (.str "")`, matching
`message_data.get("content", "")`. -/
structure LogEntry where
  type : String
  timestamp : String := ""
  message : Option Content := none
  isCompactSummary : Bool := false
deriving DecidableEq, Repr

/-- A conversation as built by `generate_html`: the initiating prompt text and
timestamp, the member entries in order, and the continuation flag. (The code
stores `(log_type, message_json, timestamp)` triples; since `json.dumps` /
`json.loads` round-trip the message dict, we keep the entry itself.) -/
structure Conversation where
  user_text : String
  timestamp : String
  messages : List LogEntry
  is_continuation : Bool
deriving DecidableEq, Repr

/-- The prompt test of the grouping loop in `generate_html`: a `user` entry
whose message content is a plain string with non-blank text. Returns the
(unstripped) prompt text, mirroring `user_text = content`. -/
def promptText (e : LogEntry) : Option String :=
  if e.type == "user" then
    match e.message with
    | some (.str s) => if strippedNonempty s then some s else none
    | _ => none
  else none

/-- The conversation opened by a prompt entry (`generate_html`). -/
def newConv (e : LogEntry) (text : String) : Conversation :=
  { user_text := text
    timestamp := e.timestamp
    messages := [e]
    is_continuation := e.isCompactSummary }

/-- Appending a non-prompt entry to the open conversation. -/
def appendMsg (c : Conversation) (e : LogEntry) : Conversation :=
  { c with messages := c.messages ++ [e] }

/-- The grouping loop of `generate_html`, with the nullable
`current_conv` state made explicit. `if not message_data: continue` skips
entries with a falsy message; a prompt entry closes the open conversation and
opens a new one; any other entry is appended to the open conversation or
dropped when none is open. -/
def groupAux : Option Conversation → List LogEntry → List Conversation
  | cur, [] => cur.toList
  | cur, e :: rest =>
    if e.message.isNone then groupAux cur rest
    else
      match promptText e with
      | some t => cur.toList ++ groupAux (some (newConv e t)) rest
      | none =>
        match cur with
        | some c => groupAux (some (appendMsg c e)) rest
        | none => groupAux none rest

/-- `generate_html`'s conversation list for a `loglines` sequence. -/
def group_conversations (logs : List LogEntry) : List Conversation :=
  groupAux none logs

/-- `is_tool_result_message`: the message content is a non-empty list all of
whose blocks are `tool_result` blocks. -/
def is_tool_result_message : Content → Bool
  | .str _ => false
  | .blocks bs => !bs.isEmpty && bs.all (fun b => b.type == "tool_result")

/-- A prompt entry is a `user` entry with non-blank plain-string content. -/
theorem promptText_spec {e : LogEntry} {t : String} (h : promptText e = some t) :
    e.type = "user" ∧ e.message = some (Content.str t) ∧ strippedNonempty t = true := by
  unfold promptText at h
  by_cases hu : e.type == "user"
  · rw [if_pos hu] at h
    cases hm : e.message with
    | none => rw [hm] at h; exact absurd h (by simp)
    | some m =>
      cases m with
      | str s =>
        rw [hm] at h
        dsimp only at h
        cases hs : strippedNonempty s with
        | false => rw [hs] at h; simp at h
        | true =>
          rw [hs, if_pos rfl] at h
          have hst : s = t := by injection h
          subst hst
          exact ⟨by simpa using hu, rfl, hs⟩
      | blocks bs => rw [hm] at h; exact absurd h (by simp)
  · rw [if_neg hu] at h
    exact absurd h (by simp)

/-- An entry with a falsy message is never a prompt. -/
theorem promptText_of_msg_none {e : LogEntry} (h : e.message = none) :
    promptText e = none := by
  unfold promptText
  by_cases hu : e.type == "user"
  · rw [if_pos hu, h]
  · rw [if_neg hu]

theorem groupAux_cons_skip (cur : Option Conversation) {e : LogEntry}
    (rest : List LogEntry) (h : e.message = none) :
    groupAux cur (e :: rest) = groupAux cur rest := by
  simp [groupAux, h]

theorem groupAux_cons_prompt (cur : Option Conversation) {e : LogEntry}
    (rest : List LogEntry) {t : String} (h : promptText e = some t) :
    groupAux cur (e :: rest) = cur.toList ++ groupAux (some (newConv e t)) rest := by
  have hm := (promptText_spec h).2.1
  simp [groupAux, hm, h]

theorem groupAux_cons_append (c : Conversation) {e : LogEntry}
    (rest : List LogEntry) {m : Content} (hm : e.message = some m)
    (hp : promptText e = none) :
    groupAux (some c) (e :: rest) = groupAux (some (appendMsg c e)) rest := by
  simp [groupAux, hm, hp]

theorem groupAux_cons_drop {e : LogEntry} (rest : List LogEntry) {m : Content}
    (hm : e.message = some m) (hp : promptText e = none) :
    groupAux none (e :: rest) = groupAux none rest := by
  simp [groupAux, hm, hp]

/-- Once a conversation is open it never closes: the concatenated messages of
the emitted conversations are the open conversation's messages followed by all
remaining truthy-message entries. -/
theorem groupAux_some_flatMap (logs : List LogEntry) : ∀ c0 : Conversation,
    (groupAux (some c0) logs).flatMap (fun c => c.messages)
      = c0.messages ++ logs.filter (fun e => e.message.isSome) := by
  induction logs with
  | nil => intro c0; simp [groupAux]
  | cons e rest ih =>
    intro c0
    cases hm : e.message with
    | none =>
      rw [groupAux_cons_skip _ _ hm, ih c0, List.filter_cons_of_neg (by simp [hm])]
    | some m =>
      cases hp : promptText e with
      | some t =>
        rw [groupAux_cons_prompt _ _ hp, List.filter_cons_of_pos (by simp [hm]),
          List.flatMap_append, ih (newConv e t)]
        simp [newConv]
      | none =>
        rw [groupAux_cons_append _ _ hm hp, ih (appendMsg c0 e),
          List.filter_cons_of_pos (by simp [hm])]
        simp [appendMsg]

/-- With no conversation open, everything up to the first prompt is dropped and
everything from the first prompt on (with a truthy message) is retained. -/
theorem groupAux_none_flatMap (logs : List LogEntry) :
    (groupAux none logs).flatMap (fun c => c.messages)
      = (logs.dropWhile (fun e => (promptText e).isNone)).filter
          (fun e => e.message.isSome) := by
  induction logs with
  | nil => simp [groupAux]
  | cons e rest ih =>
    cases hm : e.message with
    | none =>
      rw [groupAux_cons_skip _ _ hm, ih,
        List.dropWhile_cons_of_pos (by simp [promptText_of_msg_none hm])]
    | some m =>
      cases hp : promptText e with
      | some t =>
        rw [groupAux_cons_prompt _ _ hp,
          List.dropWhile_cons_of_neg (by simp [hp]),
          List.filter_cons_of_pos (by simp [hm])]
        simpa [newConv] using groupAux_some_flatMap rest (newConv e t)
      | none =>
        rw [groupAux_cons_drop _ hm hp, ih,
          List.dropWhile_cons_of_pos (by simp [hp])]

/-- A conversation seeded by its initiating prompt: the first message is a
prompt entry supplying the text, timestamp and continuation flag. -/
def IsSeeded (c : Conversation) : Prop :=
  ∃ e, c.messages.head? = some e ∧ promptText e = some c.user_text ∧
    e.timestamp = c.timestamp ∧ c.is_continuation = e.isCompactSummary

theorem isSeeded_newConv {e : LogEntry} {t : String} (h : promptText e = some t) :
    IsSeeded (newConv e t) :=
  ⟨e, rfl, h, rfl, rfl⟩

theorem isSeeded_appendMsg {c : Conversation} (h : IsSeeded c) (e : LogEntry) :
    IsSeeded (appendMsg c e) := by
  obtain ⟨e0, hh, hp, ht, hc⟩ := h
  refine ⟨e0, ?_, hp, ht, hc⟩
  cases hms : c.messages with
  | nil => rw [hms] at hh; exact absurd hh (by simp)
  | cons a l => rw [hms] at hh; simpa [appendMsg, hms] using hh

/-- Every conversation emitted by the grouping loop is seeded by a prompt. -/
theorem groupAux_seeded (logs : List LogEntry) : ∀ cur : Option Conversation,
    (∀ c, cur = some c → IsSeeded c) →
    ∀ c' ∈ groupAux cur logs, IsSeeded c' := by
  induction logs with
  | nil =>
    intro cur hcur c' hc'
    cases cur with
    | none => simp [groupAux] at hc'
    | some c =>
      simp [groupAux] at hc'
      exact hc' ▸ hcur c rfl
  | cons e rest ih =>
    intro cur hcur c' hc'
    cases hm : e.message with
    | none =>
      rw [groupAux_cons_skip _ _ hm] at hc'
      exact ih cur hcur c' hc'
    | some m =>
      cases hp : promptText e with
      | some t =>
        rw [groupAux_cons_prompt _ _ hp] at hc'
        rcases List.mem_append.mp hc' with h | h
        · cases cur with
          | none => simp at h
          | some c =>
            simp at h
            exact h ▸ hcur c rfl
        · refine ih (some (newConv e t)) ?_ c' h
          rintro c2 hc2
          cases hc2
          exact isSeeded_newConv hp
      | none =>
        cases cur with
        | none =>
          rw [groupAux_cons_drop _ hm hp] at hc'
          exact ih none (by rintro c2 hc2; cases hc2) c' hc'
        | some c =>
          rw [groupAux_cons_append _ _ hm hp] at hc'
          refine ih (some (appendMsg c e)) ?_ c' hc'
          rintro c2 hc2
          cases hc2
          exact isSeeded_appendMsg (hcur c rfl) e

theorem groupAux_none_of_no_prompt (logs : List LogEntry)
    (h : ∀ e ∈ logs, promptText e = none) : groupAux none logs = [] := by
  induction logs with
  | nil => simp [groupAux]
  | cons e rest ih =>
    have hp := h e (by simp)
    cases hm : e.message with
    | none =>
      rw [groupAux_cons_skip _ _ hm]
      exact ih (fun x hx => h x (by simp [hx]))
    | some m =>
      rw [groupAux_cons_drop _ hm hp]
      exact ih (fun x hx => h x (by simp [hx]))

/-- The two-entry log refuting the unqualified partition claim: a prompt
followed by an `assistant` entry whose message dict is empty (falsy). -/
def c1PromptEntry : LogEntry :=
  { type := "user", timestamp := "2024-01-01T00:00:00Z",
    message := some (Content.str "hi"), isCompactSummary := false }

def c1EmptyEntry : LogEntry :=
  { type := "assistant", timestamp := "2024-01-01T00:00:05Z",
    message := none, isCompactSummary := false }

def c1Demo : List LogEntry := [c1PromptEntry, c1EmptyEntry]

/-- Claim C1, as stated, is false on the code: in `c1Demo` the second entry
arrives after the first prompt, yet `if not message_data: continue` drops it,
so it belongs to no conversation — not to exactly one. -/
theorem c1_counterexample :
    (promptText c1PromptEntry).isSome = true ∧
    group_conversations c1Demo
      = [{ user_text := "hi", timestamp := "2024-01-01T00:00:00Z",
           messages := [c1PromptEntry], is_continuation := false }] ∧
    (group_conversations c1Demo).countP
      (fun c => c.messages.contains c1EmptyEntry) = 0 := by
  decide

/-- Claim C1 (amended): conversations partition the truthy-message entries from
the first prompt on — the concatenation of the conversations' messages is
exactly the suffix of the log starting at the first prompt, restricted to
entries with a non-empty message body; every conversation has at least one
message, headed by the initiating user prompt with non-empty plain-string
content (which supplies text, timestamp and continuation flag); a user entry
consisting only of `tool_result` blocks never starts a conversation; and when
the log has no prompt at all, no entry belongs to any conversation. -/
theorem c1_grouping_partition (logs : List LogEntry) :
    ((group_conversations logs).flatMap (fun c => c.messages)
        = (logs.dropWhile (fun e => (promptText e).isNone)).filter
            (fun e => e.message.isSome))
    ∧ (∀ c ∈ group_conversations logs, ∃ e, c.messages.head? = some e ∧
          promptText e = some c.user_text ∧ e.timestamp = c.timestamp ∧
          c.is_continuation = e.isCompactSummary)
    ∧ (∀ c ∈ group_conversations logs, ∀ e, c.messages.head? = some e →
          ∀ m, e.message = some m → is_tool_result_message m = false)
    ∧ ((∀ e ∈ logs, promptText e = none) → group_conversations logs = []) := by
  refine ⟨groupAux_none_flatMap logs, ?_, ?_, ?_⟩
  · exact fun c hc => groupAux_seeded logs none (by rintro c2 h; cases h) c hc
  · intro c hc e he m hm
    obtain ⟨e0, hh, hp, _, _⟩ :=
      groupAux_seeded logs none (by rintro c2 h; cases h) c hc
    rw [he] at hh
    have he0 : e = e0 := by injection hh
    subst he0
    have hmsg := (promptText_spec hp).2.1
    rw [hm] at hmsg
    have : m = Content.str c.user_text := by injection hmsg
    subst this
    rfl
  · exact groupAux_none_of_no_prompt logs

/-- Witness for C1 at concrete inputs: a promptless log yields no
conversations, and the head of the demo conversation is not tool-result-only. -/
theorem c1_grouping_partition_witness :
    group_conversations [c1EmptyEntry] = [] ∧
    is_tool_result_message (Content.str "hi") = false :=
  ⟨(c1_grouping_partition [c1EmptyEntry]).2.2.2 (by decide),
   (c1_grouping_partition c1Demo).2.2.1
     { user_text := "hi", timestamp := "2024-01-01T00:00:00Z",
       messages := [c1PromptEntry], is_continuation := false }
     (by decide) c1PromptEntry (by decide) (Content.str "hi") (by decide)⟩

/-- Claim C10: a user entry whose string content is non-empty but entirely
whitespace fails `content.strip()`, so it is not a prompt: it never starts a
new conversation, is appended to the open conversation when one exists, and is
dropped otherwise. -/
theorem c10_whitespace_user_entry_never_starts (e : LogEntry) (s : String)
    (htype : e.type = "user") (hmsg : e.message = some (Content.str s))
    (_hne : s ≠ "") (hws : s.data.all Char.isWhitespace = true) :
    promptText e = none ∧
    (∀ (c : Conversation) (rest : List LogEntry),
        groupAux (some c) (e :: rest) = groupAux (some (appendMsg c e)) rest) ∧
    (∀ rest : List LogEntry, groupAux none (e :: rest) = groupAux none rest) := by
  have hstr : strippedNonempty s = false := by
    unfold strippedNonempty
    simp only [List.any_eq_false]
    intro c hc
    have := List.all_eq_true.mp hws c hc
    simp [this]
  have hp : promptText e = none := by
    unfold promptText
    rw [if_pos (by simp [htype]), hmsg]
    dsimp only
    rw [hstr]
    simp
  exact ⟨hp, fun c rest => groupAux_cons_append c rest hmsg hp,
    fun rest => groupAux_cons_drop rest hmsg hp⟩

def c10Entry : LogEntry :=
  { type := "user", timestamp := "t1",
    message := some (Content.str " \t "), isCompactSummary := false }

/-- Witness for C10: the blank-content user entry is not a prompt. -/
theorem c10_whitespace_user_entry_witness : promptText c10Entry = none :=
  (c10_whitespace_user_entry_never_starts c10Entry " \t " rfl rfl
    (by decide) (by decide)).1

/-- The key/value pairs contributed by one stored message to the per-conversation
`global_tool_results_map` in `generate_html`: `user` messages that are pure
tool replies contribute, for each `tool_result` block with a non-empty
`tool_use_id`, the pair (identifier, block), in block order. -/
def entryToolResultPairs (e : LogEntry) : List (String × Block) :=
  if e.type == "user" then
    match e.message with
    | some (Content.blocks bs) =>
      if is_tool_result_message (Content.blocks bs) then
        (bs.filter (fun b => b.type == "tool_result" && b.tool_use_id != "")).map
          (fun b => (b.tool_use_id, b))
      else []
    | _ => []
  else []

/-- Python dict assignment `map[tool_id] = block` on a map read through `get`. -/
def updateMap (m : String → Option Block) (p : String × Block) :
    String → Option Block :=
  fun x => if x == p.1 then some p.2 else m x

/-- The per-conversation `global_tool_results_map`: the nested
message-then-block assignment loop of `generate_html`, written as a fold of
dict assignments over the contributed pairs in message/block order. -/
def conv_tool_results_map (msgs : List LogEntry) : String → Option Block :=
  (msgs.flatMap entryToolResultPairs).foldl updateMap (fun _ => none)

/-- The external rendering collaborators (Jinja macros, markdown) that
`render_message` delegates to, abstracted as parameters per the spec. -/
structure RenderEnv where
  renderUserContent : Content → String
  renderAssistantContent : Content → Option (String → Option Block) → String
  messageMacro : String → String → String → String → String → String

/-- `make_msg_id`: timestamp with `:` and `.` replaced by `-`, prefixed. -/
def make_msg_id (ts : String) : String :=
  "msg-" ++ String.mk (ts.data.map
    (fun c => if c = ':' then '-' else if c = '.' then '-' else c))

/-- `render_message`. A `none` message embeds a falsy `message_json`. For user
messages the code computes `content_html` before the tool-result check; being
pure, the computation is moved after the check it cannot affect. -/
def render_message (env : RenderEnv) (log_type : String) (message : Option Content)
    (timestamp : String) (tool_results_map : Option (String → Option Block)) :
    String :=
  match message with
  | none => ""
  | some m =>
    if log_type == "user" then
      if is_tool_result_message m then ""
      else
        let content_html := env.renderUserContent m
        if strippedNonempty content_html = false then ""
        else env.messageMacro "user" "User" (make_msg_id timestamp) timestamp
          content_html
    else if log_type == "assistant" then
      let content_html := env.renderAssistantContent m tool_results_map
      if strippedNonempty content_html = false then ""
      else env.messageMacro "assistant" "Assistant" (make_msg_id timestamp)
        timestamp content_html
    else ""

theorem getLast?_mem {α : Type _} {l : List α} {a : α} (h : l.getLast? = some a) :
    a ∈ l := by
  induction l with
  | nil => simp at h
  | cons b t ih =>
    cases t with
    | nil =>
      simp only [List.getLast?_singleton] at h
      have : b = a := by injection h
      simp [this]
    | cons c u =>
      rw [List.getLast?_cons_cons] at h
      exact List.mem_cons_of_mem b (ih h)

theorem getLast?_cons_or {α : Type _} (a : α) (l : List α) :
    (a :: l).getLast? = l.getLast?.or (some a) := by
  cases l with
  | nil => simp
  | cons b t =>
    rw [List.getLast?_cons_cons]
    cases h : (b :: t).getLast? with
    | none => rw [List.getLast?_eq_none_iff] at h; cases h
    | some y => simp

/-- A fold of dict assignments looks up to the last assignment for the key,
falling back to the initial map: lookups depend on the identifier only. -/
theorem foldl_updateMap (ps : List (String × Block)) :
    ∀ (m0 : String → Option Block) (x : String),
      ps.foldl updateMap m0 x
        = (((ps.filter (fun p => p.1 == x)).map Prod.snd).getLast?).or (m0 x) := by
  induction ps with
  | nil => intro m0 x; simp
  | cons p ps ih =>
    intro m0 x
    rw [List.foldl_cons, ih (updateMap m0 p) x]
    simp only [List.filter_cons]
    by_cases hpx : p.1 = x
    · subst hpx
      have h2 : updateMap m0 p p.1 = some p.2 := by
        unfold updateMap
        rw [if_pos (by simp)]
      rw [h2]
      simp only [beq_self_eq_true, if_true, List.map_cons, getLast?_cons_or,
        Option.or_assoc]
      simp
    · have h1 : (p.1 == x) = false := by simp [hpx]
      have h2 : updateMap m0 p x = m0 x := by
        unfold updateMap
        rw [if_neg (by simp; exact fun hh => hpx hh.symm)]
      rw [h1, h2]
      simp

/-- Every pair contributed to the tool-result map comes from a `tool_result`
block (keyed by its own non-empty `tool_use_id`) inside a pure tool-reply
`user` message of the conversation. -/
theorem mem_entryToolResultPairs {msgs : List LogEntry} {p : String × Block}
    (h : p ∈ msgs.flatMap entryToolResultPairs) :
    p.1 = p.2.tool_use_id ∧ p.2.type = "tool_result" ∧ p.2.tool_use_id ≠ "" ∧
    ∃ e ∈ msgs, e.type = "user" ∧ ∃ bs, e.message = some (Content.blocks bs) ∧
      is_tool_result_message (Content.blocks bs) = true ∧ p.2 ∈ bs := by
  rw [List.mem_flatMap] at h
  obtain ⟨e, he, hp⟩ := h
  unfold entryToolResultPairs at hp
  by_cases hu : e.type == "user"
  · rw [if_pos hu] at hp
    cases hm : e.message with
    | none => rw [hm] at hp; simp at hp
    | some m =>
      cases m with
      | str s => rw [hm] at hp; simp at hp
      | blocks bs =>
        rw [hm] at hp
        dsimp only at hp
        by_cases htr : is_tool_result_message (Content.blocks bs)
        · rw [if_pos htr] at hp
          rw [List.mem_map] at hp
          obtain ⟨b, hbmem, hbp⟩ := hp
          rw [List.mem_filter] at hbmem
          obtain ⟨hbs, hcond⟩ := hbmem
          have hty : (b.type == "tool_result") = true := by
            cases hand : (b.type == "tool_result") with
            | false => rw [Bool.and_eq_true] at hcond; rw [hand] at hcond; simp at hcond
            | true => rfl
          have hid : (b.tool_use_id != "") = true := by
            rw [Bool.and_eq_true] at hcond; exact hcond.2
          subst hbp
          refine ⟨rfl, by simpa using hty, by simpa using hid,
            e, he, by simpa using hu, bs, hm, htr, hbs⟩
        · rw [if_neg htr] at hp; simp at hp
  · rw [if_neg hu] at hp; simp at hp

def c3Block1 : Block :=
  { type := "tool_result", tool_use_id := "T1", content := some "first" }

def c3Block2 : Block :=
  { type := "tool_result", tool_use_id := "T1", content := some "second" }

def c3Msg1 : LogEntry :=
  { type := "user", timestamp := "t1", message := some (Content.blocks [c3Block1]) }

def c3Msg2 : LogEntry :=
  { type := "user", timestamp := "t2", message := some (Content.blocks [c3Block2]) }

def c3Demo : List LogEntry := [c3Msg1, c3Msg2]

/-- Claim C3: the tool-result index holds at most one block per identifier
(its codomain is an optional block); its value at any identifier `x` is the
last contributed (identifier, block) pair with key `x` in message/block order,
and depends on `x` alone, never on a position. On the duplicate-identifier
demo conversation the later block wins. -/
theorem c3_last_result_wins :
    (∀ (msgs : List LogEntry) (x : String),
      conv_tool_results_map msgs x
        = (((msgs.flatMap entryToolResultPairs).filter
              (fun p => p.1 == x)).map Prod.snd).getLast?)
    ∧ conv_tool_results_map c3Demo "T1" = some c3Block2 := by
  constructor
  · intro msgs x
    unfold conv_tool_results_map
    rw [foldl_updateMap]
    simp
  · decide

/-- A constant rendering environment, used only to instantiate theorems that
hold for every environment. -/
def trivialRenderEnv : RenderEnv :=
  { renderUserContent := fun _ => ""
    renderAssistantContent := fun _ _ => ""
    messageMacro := fun _ _ _ _ _ => "" }

/-- Claim C2: if a conversation contains a `tool_use` block with identifier
`x` and a pure tool-reply user message containing a `tool_result` block with
back-reference `x`, then the conversation's tool-result index is defined at
`x` and yields a `tool_result` block with back-reference `x` taken from a pure
tool-reply user message of the conversation (the block nested under the
invocation when assistant messages are rendered); and `render_message` yields
empty output for any pure tool-reply user message, so it is never an
independent visible turn. (An empty identifier encodes an absent `id` field,
so real identifiers are non-empty.) -/
theorem c2_tool_result_linkage (msgs : List LogEntry) (x : String)
    (eu : LogEntry) (bs : List Block) (b : Block)
    (hx : x ≠ "")
    (_htu : ∃ ea ∈ msgs, ∃ abs, ea.message = some (Content.blocks abs) ∧
        ∃ bu ∈ abs, bu.type = "tool_use" ∧ bu.id = x)
    (heu : eu ∈ msgs) (hut : eu.type = "user")
    (hm : eu.message = some (Content.blocks bs))
    (htr : is_tool_result_message (Content.blocks bs) = true)
    (hb : b ∈ bs) (hbx : b.tool_use_id = x) :
    (∃ b', conv_tool_results_map msgs x = some b' ∧ b'.type = "tool_result" ∧
        b'.tool_use_id = x ∧
        ∃ e' ∈ msgs, e'.type = "user" ∧
          ∃ bs', e'.message = some (Content.blocks bs') ∧
            is_tool_result_message (Content.blocks bs') = true ∧ b' ∈ bs')
    ∧ (∀ (env : RenderEnv) (ts : String)
          (trm : Option (String → Option Block)),
        render_message env "user" (some (Content.blocks bs)) ts trm = "") := by
  constructor
  · have hbty : b.type = "tool_result" := by
      unfold is_tool_result_message at htr
      rw [Bool.and_eq_true] at htr
      have := List.all_eq_true.mp htr.2 b hb
      simpa using this
    have hpair : (x, b) ∈ msgs.flatMap entryToolResultPairs := by
      rw [List.mem_flatMap]
      refine ⟨eu, heu, ?_⟩
      unfold entryToolResultPairs
      rw [if_pos (by simp [hut]), hm]
      dsimp only
      rw [if_pos htr, List.mem_map]
      refine ⟨b, List.mem_filter.mpr ⟨hb, by simp [hbty, hbx, hx]⟩, by rw [hbx]⟩
    have hfil : (x, b) ∈ (msgs.flatMap entryToolResultPairs).filter
        (fun p => p.1 == x) :=
      List.mem_filter.mpr ⟨hpair, by simp⟩
    obtain ⟨p', hp'⟩ : ∃ p',
        ((msgs.flatMap entryToolResultPairs).filter
          (fun p => p.1 == x)).getLast? = some p' := by
      cases hq : ((msgs.flatMap entryToolResultPairs).filter
          (fun p => p.1 == x)).getLast? with
      | none =>
        rw [List.getLast?_eq_none_iff] at hq
        rw [hq] at hfil
        cases hfil
      | some p' => exact ⟨p', rfl⟩
    have hp'mem := getLast?_mem hp'
    have hp'x : (p'.1 == x) = true := (List.mem_filter.mp hp'mem).2
    obtain ⟨hkey, hty, _, e', he', hut', bs', hm', htr', hbmem'⟩ :=
      mem_entryToolResultPairs (List.mem_filter.mp hp'mem).1
    refine ⟨p'.2, ?_, hty, ?_, e', he', hut', bs', hm', htr', hbmem'⟩
    · unfold conv_tool_results_map
      rw [foldl_updateMap, List.getLast?_map, hp']
      simp
    · rw [← hkey]
      simpa using hp'x
  · intro env ts trm
    simp [render_message, htr]

def c2Use : Block := { type := "tool_use", id := "T9", name := "Bash" }

def c2Res : Block :=
  { type := "tool_result", tool_use_id := "T9", content := some "ok" }

def c2Assistant : LogEntry :=
  { type := "assistant", timestamp := "t1",
    message := some (Content.blocks [c2Use]) }

def c2Reply : LogEntry :=
  { type := "user", timestamp := "t2",
    message := some (Content.blocks [c2Res]) }

def c2Demo : List LogEntry := [c2Assistant, c2Reply]

/-- Witness for C2: the demo pure tool-reply message renders to nothing. -/
theorem c2_tool_result_linkage_witness :
    render_message trivialRenderEnv "user"
      (some (Content.blocks [c2Res])) "t2" none = "" :=
  (c2_tool_result_linkage c2Demo "T9" c2Reply [c2Res] c2Res (by decide)
    ⟨c2Assistant, by decide, [c2Use], by decide, c2Use, by decide, rfl, rfl⟩
    (by decide) rfl rfl (by decide) (by decide) rfl).2
    trivialRenderEnv "t2" none

theorem charListLe_refl (l : List Char) : charListLe l l = true := by
  induction l with
  | nil => rfl
  | cons a as ih => simp [charListLe, lt_irrefl, ih]

theorem charListLe_total (as bs : List Char) :
    charListLe as bs = true ∨ charListLe bs as = true := by
  induction as generalizing bs with
  | nil => exact Or.inl rfl
  | cons a as ih =>
    cases bs with
    | nil => exact Or.inr rfl
    | cons b bs =>
      rcases lt_trichotomy a b with h | h | h
      · exact Or.inl (by simp [charListLe, h])
      · subst h
        rcases ih bs with h2 | h2
        · exact Or.inl (by simp [charListLe, lt_irrefl, h2])
        · exact Or.inr (by simp [charListLe, lt_irrefl, h2])
      · exact Or.inr (by simp [charListLe, h])

theorem charListLe_trans {as bs cs : List Char} (h1 : charListLe as bs = true)
    (h2 : charListLe bs cs = true) : charListLe as cs = true := by
  induction as generalizing bs cs with
  | nil => rfl
  | cons a as ih =>
    cases bs with
    | nil => simp [charListLe] at h1
    | cons b bs =>
      cases cs with
      | nil => simp [charListLe] at h2
      | cons c cs =>
        by_cases hab : a < b
        · by_cases hbc : b < c
          · simp [charListLe, lt_trans hab hbc]
          · by_cases hcb : c < b
            · simp [charListLe, hbc, hcb] at h2
            · have hbceq : b = c := le_antisymm (not_lt.mp hcb) (not_lt.mp hbc)
              subst hbceq
              simp [charListLe, hab]
        · by_cases hba : b < a
          · simp [charListLe, hab, hba] at h1
          · have habeq : a = b := le_antisymm (not_lt.mp hba) (not_lt.mp hab)
            subst habeq
            by_cases hac : a < c
            · simp [charListLe, hac]
            · by_cases hca : c < a
              · simp [charListLe, hac, hca] at h2
              · simp [charListLe, lt_irrefl, hac, hca] at h1 h2 ⊢
                exact ih h1 h2

theorem sinsert_perm (le : α → α → Bool) (x : α) (l : List α) :
    (sinsert le x l).Perm (x :: l) := by
  induction l with
  | nil => exact List.Perm.refl _
  | cons y ys ih =>
    unfold sinsert
    by_cases h : le x y
    · rw [if_pos h]
    · rw [if_neg h]
      exact (List.Perm.cons y ih).trans (List.Perm.swap x y ys)

theorem ssort_perm (le : α → α → Bool) (l : List α) : (ssort le l).Perm l := by
  induction l with
  | nil => exact List.Perm.refl _
  | cons x xs ih =>
    unfold ssort
    exact (sinsert_perm le x (ssort le xs)).trans (List.Perm.cons x ih)

theorem mem_sinsert {le : α → α → Bool} {x z : α} {l : List α} :
    z ∈ sinsert le x l ↔ z = x ∨ z ∈ l := by
  rw [(sinsert_perm le x l).mem_iff]
  simp

theorem sinsert_pairwise {le : α → α → Bool}
    (htot : ∀ a b, le a b = true ∨ le b a = true)
    (htrans : ∀ a b c, le a b = true → le b c = true → le a c = true)
    (x : α) {l : List α}
    (hl : l.Pairwise (fun a b => le a b = true)) :
    (sinsert le x l).Pairwise (fun a b => le a b = true) := by
  induction l with
  | nil => simp [sinsert]
  | cons y ys ih =>
    rw [List.pairwise_cons] at hl
    obtain ⟨hy, hys⟩ := hl
    unfold sinsert
    by_cases h : le x y
    · rw [if_pos h]
      refine List.Pairwise.cons ?_ (List.Pairwise.cons hy hys)
      intro z hz
      rcases List.mem_cons.mp hz with hz | hz
      · exact hz ▸ h
      · exact htrans x y z h (hy z hz)
    · rw [if_neg h]
      refine List.Pairwise.cons ?_ (ih hys)
      intro z hz
      rcases mem_sinsert.mp hz with hz | hz
      · rcases htot x y with ht | ht
        · exact absurd ht h
        · exact hz ▸ ht
      · exact hy z hz

theorem ssort_pairwise {le : α → α → Bool}
    (htot : ∀ a b, le a b = true ∨ le b a = true)
    (htrans : ∀ a b c, le a b = true → le b c = true → le a c = true)
    (l : List α) :
    (ssort le l).Pairwise (fun a b => le a b = true) := by
  induction l with
  | nil => simp [ssort]
  | cons x xs ih => exact sinsert_pairwise htot htrans x ih

theorem filter_sinsert_pos {le : α → α → Bool} {p : α → Bool}
    (hmut : ∀ a b, p a = true → p b = true → le a b = true)
    {x : α} (hx : p x = true) (l : List α) :
    (sinsert le x l).filter p = x :: l.filter p := by
  induction l with
  | nil => simp [sinsert, hx]
  | cons y ys ih =>
    unfold sinsert
    by_cases h : le x y
    · rw [if_pos h, List.filter_cons, List.filter_cons]
      simp [hx]
    · rw [if_neg h]
      have hpy : p y = false := by
        cases hq : p y with
        | false => rfl
        | true => exact absurd (hmut x y hx hq) h
      rw [List.filter_cons, List.filter_cons]
      simp [hpy, ih]

theorem filter_sinsert_neg {le : α → α → Bool} {p : α → Bool}
    {x : α} (hx : p x = false) (l : List α) :
    (sinsert le x l).filter p = l.filter p := by
  induction l with
  | nil => simp [sinsert, hx]
  | cons y ys ih =>
    unfold sinsert
    by_cases h : le x y
    · rw [if_pos h, List.filter_cons]
      simp [hx]
    · rw [if_neg h, List.filter_cons, List.filter_cons]
      by_cases hpy : p y = true
      · simp [hpy, ih]
      · simp [hpy, ih]

/-- Stability of `ssort`: elements picked by a predicate on which the
comparison never discriminates keep their original relative order. -/
theorem filter_ssort {le : α → α → Bool} {p : α → Bool}
    (hmut : ∀ a b, p a = true → p b = true → le a b = true) (l : List α) :
    (ssort le l).filter p = l.filter p := by
  induction l with
  | nil => rfl
  | cons x xs ih =>
    unfold ssort
    cases hx : p x with
    | true =>
      rw [filter_sinsert_pos hmut hx, ih, List.filter_cons]
      simp [hx]
    | false =>
      rw [filter_sinsert_neg hx, ih, List.filter_cons]
      simp [hx]

/-- The commit detections of `analyze_conversation`: walk every block of every
message; for each `tool_result` block whose `content` is a string, record one
`(hash, message, timestamp)` triple per regex match, the timestamp being the
enclosing message's. The `COMMIT_PATTERN` matcher is the parameter `detect`. -/
def conversation_commits (detect : String → List (String × String))
    (msgs : List LogEntry) : List (String × String × String) :=
  msgs.flatMap (fun e =>
    match e.message with
    | some (Content.blocks bs) =>
      bs.flatMap (fun b =>
        if b.type == "tool_result" then
          match b.content with
          | some s => (detect s).map (fun hm => (hm.1, hm.2, e.timestamp))
          | none => []
        else [])
    | _ => [])

/-- One timeline entry `(timestamp, tag, item_html)` of `generate_html`; the
rendered html is a function of the originating conversation, recorded here by
its index. -/
structure TimelineItem where
  ts : String
  kind : String
  conv_index : Nat
deriving DecidableEq, Repr

/-- The sort key comparison `key=lambda x: x[0]` of `timeline_items.sort`. -/
def tsLe (a b : TimelineItem) : Bool := charListLe a.ts.data b.ts.data

/-- The prompt items appended to `timeline_items`: one per conversation that is
not a continuation and whose prompt text does not start with the feedback
marker, in conversation order. -/
def prompt_items (convs : List Conversation) : List TimelineItem :=
  (convs.enum.filter (fun ic =>
      !ic.2.is_continuation &&
      !(pyStartsWith ic.2.user_text "Stop hook feedback:"))).map
    (fun ic => { ts := ic.2.timestamp, kind := "prompt", conv_index := ic.1 })

/-- The commit items appended to `timeline_items`: one per detected commit of
`all_commits`, in conversation-then-detection order, timestamped with the
detection's timestamp. -/
def commit_items (detect : String → List (String × String))
    (convs : List Conversation) : List TimelineItem :=
  convs.enum.flatMap (fun ic =>
    (conversation_commits detect ic.2.messages).map
      (fun c => { ts := c.2.2, kind := "commit", conv_index := ic.1 }))

/-- `timeline_items` after `timeline_items.sort(key=lambda x: x[0])`. -/
def timeline_items (detect : String → List (String × String))
    (convs : List Conversation) : List TimelineItem :=
  ssort tsLe (prompt_items convs ++ commit_items detect convs)

theorem tsLe_total (a b : TimelineItem) : tsLe a b = true ∨ tsLe b a = true :=
  charListLe_total a.ts.data b.ts.data

theorem tsLe_trans (a b c : TimelineItem) (h1 : tsLe a b = true)
    (h2 : tsLe b c = true) : tsLe a c = true :=
  charListLe_trans h1 h2

theorem countP_enumFrom {β : Type _} (p : β → Bool) (l : List β) :
    ∀ n, (List.enumFrom n l).countP (fun ic => p ic.2) = l.countP p := by
  induction l with
  | nil => intro n; rfl
  | cons a l ih =>
    intro n
    simp [List.enumFrom, List.countP_cons, ih]

theorem mem_prompt_items_kind {convs : List Conversation} {it : TimelineItem}
    (h : it ∈ prompt_items convs) : it.kind = "prompt" := by
  unfold prompt_items at h
  rw [List.mem_map] at h
  obtain ⟨ic, _, rfl⟩ := h
  rfl

theorem mem_commit_items_kind {detect : String → List (String × String)}
    {convs : List Conversation} {it : TimelineItem}
    (h : it ∈ commit_items detect convs) : it.kind = "commit" := by
  unfold commit_items at h
  rw [List.mem_flatMap] at h
  obtain ⟨ic, _, hm⟩ := h
  rw [List.mem_map] at hm
  obtain ⟨c, _, rfl⟩ := hm
  rfl

/-- Claim C4: the merged timeline is a permutation of exactly one prompt item
per non-continuation conversation whose prompt text does not begin with the
internal feedback marker plus one item per detected commit (counts stated for
both kinds), it is sorted by timestamp ascending, and ties keep discovery
order: filtering the sorted list at any fixed timestamp returns those items in
the prompts-then-commits discovery order. -/
theorem c4_timeline_merge (detect : String → List (String × String))
    (convs : List Conversation) :
    (timeline_items detect convs).Perm
        (prompt_items convs ++ commit_items detect convs)
    ∧ (timeline_items detect convs).countP (fun it => it.kind == "prompt")
        = convs.countP (fun c => !c.is_continuation &&
            !(pyStartsWith c.user_text "Stop hook feedback:"))
    ∧ (timeline_items detect convs).countP (fun it => it.kind == "commit")
        = (commit_items detect convs).length
    ∧ (timeline_items detect convs).Pairwise (fun a b => tsLe a b = true)
    ∧ (∀ t : String, (timeline_items detect convs).filter (fun it => it.ts == t)
        = (prompt_items convs ++ commit_items detect convs).filter
            (fun it => it.ts == t)) := by
  have hperm : (timeline_items detect convs).Perm
      (prompt_items convs ++ commit_items detect convs) :=
    ssort_perm tsLe _
  refine ⟨hperm, ?_, ?_, ?_, ?_⟩
  · rw [hperm.countP_eq, List.countP_append]
    have h1 : (prompt_items convs).countP (fun it => it.kind == "prompt")
        = (prompt_items convs).length := by
      rw [List.countP_eq_length]
      intro it hit
      simp [mem_prompt_items_kind hit]
    have h2 : (commit_items detect convs).countP
        (fun it => it.kind == "prompt") = 0 := by
      rw [List.countP_eq_zero]
      intro it hit
      simp [mem_commit_items_kind hit]
    rw [h1, h2, Nat.add_zero]
    unfold prompt_items
    rw [List.length_map, ← List.countP_eq_length_filter, List.enum]
    exact countP_enumFrom
      (fun c => !c.is_continuation &&
        !(pyStartsWith c.user_text "Stop hook feedback:")) convs 0
  · rw [hperm.countP_eq, List.countP_append]
    have h1 : (prompt_items convs).countP (fun it => it.kind == "commit")
        = 0 := by
      rw [List.countP_eq_zero]
      intro it hit
      simp [mem_prompt_items_kind hit]
    have h2 : (commit_items detect convs).countP
        (fun it => it.kind == "commit") = (commit_items detect convs).length := by
      rw [List.countP_eq_length]
      intro it hit
      simp [mem_commit_items_kind hit]
    rw [h1, h2, Nat.zero_add]
  · exact ssort_pairwise (fun a b => tsLe_total a b) tsLe_trans _
  · intro t
    refine filter_ssort ?_ _
    intro a b ha hb
    have ha' : a.ts = t := by simpa using ha
    have hb' : b.ts = t := by simpa using hb
    unfold tsLe
    rw [ha', hb']
    exact charListLe_refl t.data

/-- `PROMPTS_PER_PAGE = 5`. -/
def PROMPTS_PER_PAGE : Nat := 5

/-- `total_pages = (total_convs + PROMPTS_PER_PAGE - 1) // PROMPTS_PER_PAGE`. -/
def total_pages (total_convs : Nat) : Nat :=
  (total_convs + PROMPTS_PER_PAGE - 1) / PROMPTS_PER_PAGE

/-- The conversations shown on 1-indexed page `page_num`:
`conversations[start_idx:end_idx]` with `start_idx = (page_num-1)*5` and
`end_idx = min(start_idx+5, total_convs)`. -/
def page_conversations (convs : List Conversation) (page_num : Nat) :
    List Conversation :=
  let start_idx := (page_num - 1) * PROMPTS_PER_PAGE
  let end_idx := min (start_idx + PROMPTS_PER_PAGE) convs.length
  (convs.take end_idx).drop start_idx

/-- The page contents generated by `for page_num in range(1, total_pages+1)`. -/
def pages (convs : List Conversation) : List (List Conversation) :=
  (List.range (total_pages convs.length)).map
    (fun k => page_conversations convs (k + 1))

/-- The twelve distinct conversations of the pagination example. -/
def c5Demo : List Conversation :=
  (List.range 12).map (fun i =>
    { user_text := String.mk (List.replicate i 'a'), timestamp := "",
      messages := [], is_continuation := false })

/-- Claim C5: the number of pages is `ceil(total / 5)` (the code's formula,
characterized by the two ceiling inequalities), zero conversations produce zero
pages, and page `k` (1-indexed) holds the conversations at positions
`(k-1)*5+1 .. min(k*5, total)` in order; in particular the twelve-conversation
example yields exactly the three pages 1–5, 6–10, 11–12. -/
theorem c5_pagination (convs : List Conversation) :
    (pages convs).length = (convs.length + PROMPTS_PER_PAGE - 1) / PROMPTS_PER_PAGE
    ∧ convs.length ≤ PROMPTS_PER_PAGE * (pages convs).length
    ∧ PROMPTS_PER_PAGE * (pages convs).length ≤ convs.length + (PROMPTS_PER_PAGE - 1)
    ∧ (convs.length = 0 → pages convs = [])
    ∧ (∀ k, 1 ≤ k → k ≤ total_pages convs.length →
        page_conversations convs k
            = (convs.drop ((k - 1) * PROMPTS_PER_PAGE)).take PROMPTS_PER_PAGE
        ∧ (page_conversations convs k).length
            = min PROMPTS_PER_PAGE (convs.length - (k - 1) * PROMPTS_PER_PAGE)
        ∧ (∀ j : Nat, j < (page_conversations convs k).length →
            (page_conversations convs k)[j]?
              = convs[(k - 1) * PROMPTS_PER_PAGE + j]?))
    ∧ pages c5Demo = [c5Demo.take 5, (c5Demo.drop 5).take 5,
        (c5Demo.drop 10).take 5] := by
  have hlen : (pages convs).length = total_pages convs.length := by
    unfold pages
    rw [List.length_map, List.length_range]
  have hdm := Nat.div_add_mod (convs.length + PROMPTS_PER_PAGE - 1) PROMPTS_PER_PAGE
  have hmlt : (convs.length + PROMPTS_PER_PAGE - 1) % PROMPTS_PER_PAGE
      < PROMPTS_PER_PAGE := Nat.mod_lt _ (by decide)
  have hpage : ∀ k, 1 ≤ k → k ≤ total_pages convs.length →
      page_conversations convs k
        = (convs.drop ((k - 1) * PROMPTS_PER_PAGE)).take PROMPTS_PER_PAGE := by
    intro k _ _
    unfold page_conversations
    rw [List.drop_take]
    rw [List.take_eq_take]
    rw [List.length_drop]
    omega
  refine ⟨by rw [hlen]; rfl, ?_, ?_, ?_, ?_, by decide⟩
  · rw [hlen]
    unfold total_pages at hdm hmlt ⊢
    unfold PROMPTS_PER_PAGE at hdm hmlt ⊢
    omega
  · rw [hlen]
    unfold total_pages at hdm hmlt ⊢
    unfold PROMPTS_PER_PAGE at hdm hmlt ⊢
    omega
  · intro h0
    unfold pages
    rw [h0]
    rfl
  · intro k hk1 hk2
    refine ⟨hpage k hk1 hk2, ?_, ?_⟩
    · rw [hpage k hk1 hk2, List.length_take, List.length_drop]
    · intro j hj
      rw [hpage k hk1 hk2] at hj ⊢
      rw [List.length_take, List.length_drop] at hj
      rw [List.getElem?_take, if_pos (by omega), List.getElem?_drop]

/-- Witness for C5: the empty input paginates to no pages, and page 3 of the
twelve-conversation example is conversations 11–12. -/
theorem c5_pagination_witness :
    pages ([] : List Conversation) = [] ∧
    page_conversations c5Demo 3 = (c5Demo.drop 10).take 5 :=
  ⟨(c5_pagination []).2.2.2.1 rfl,
   ((c5_pagination c5Demo).2.2.2.2.1 3 (by decide) (by decide)).1⟩

/-- One well-formed JSONL line as `_parse_jsonl_file` probes it: the `.get`
results for the fields it reads (`isCompactSummary` as its truth value). -/
structure RawEntry where
  type : Option String := none
  timestamp : Option String := none
  message : Option Content := none
  isCompactSummary : Bool := false
deriving DecidableEq, Repr

/-- One physical line of a `.jsonl` file: blank after stripping, not valid
JSON (`json.loads` raises), or a JSON object. -/
inductive JsonlLine
  | blank
  | malformed
  | obj (r : RawEntry)
deriving DecidableEq, Repr

/-- `entry_type in ("user", "assistant")`. -/
def keepType (r : RawEntry) : Bool :=
  r.type == some "user" || r.type == some "assistant"

/-- The normalized entry `_parse_jsonl_file` builds from a retained line. -/
def normalizeRaw (r : RawEntry) : LogEntry :=
  { type := r.type.getD ""
    timestamp := r.timestamp.getD ""
    message := r.message
    isCompactSummary := r.isCompactSummary }

/-- The per-line behaviour of `_parse_jsonl_file`: blank lines and JSON
decode errors are skipped, objects are kept iff their type is `user` or
`assistant`. -/
def parseLine : JsonlLine → Option LogEntry
  | .blank => none
  | .malformed => none
  | .obj r => if keepType r then some (normalizeRaw r) else none

/-- `_parse_jsonl_file`: the retained normalized entries in line order. -/
def parse_jsonl_file (lines : List JsonlLine) : List LogEntry :=
  lines.filterMap parseLine

def objOf : JsonlLine → Option RawEntry
  | .obj r => some r
  | _ => none

theorem parse_jsonl_malformed_skip (pre post : List JsonlLine) :
    parse_jsonl_file (pre ++ JsonlLine.malformed :: post)
      = parse_jsonl_file pre ++ parse_jsonl_file post := by
  simp [parse_jsonl_file, List.filterMap_append, List.filterMap_cons, parseLine]

/-- Claim C7: `_parse_jsonl_file` returns exactly the well-formed lines of
type `user` or `assistant`, normalized, in line order; a malformed line is
skipped without aborting the surrounding parse; `summary`-typed lines are
never retained (every returned entry is `user` or `assistant`); and the
continuation marker of a retained line is preserved (with the whole
normalization of type, timestamp and message). -/
theorem c7_jsonl_normalization (lines : List JsonlLine) :
    parse_jsonl_file lines
        = ((lines.filterMap objOf).filter keepType).map normalizeRaw
    ∧ (∀ pre post, parse_jsonl_file (pre ++ JsonlLine.malformed :: post)
        = parse_jsonl_file pre ++ parse_jsonl_file post)
    ∧ (∀ e ∈ parse_jsonl_file lines, e.type = "user" ∨ e.type = "assistant")
    ∧ (∀ r : RawEntry, r.type = some "summary" →
        parseLine (JsonlLine.obj r) = none)
    ∧ (∀ (r : RawEntry) (e : LogEntry), parseLine (JsonlLine.obj r) = some e →
        e.isCompactSummary = r.isCompactSummary ∧ e.type = r.type.getD ""
        ∧ e.timestamp = r.timestamp.getD "" ∧ e.message = r.message) := by
  have hline : ∀ (r : RawEntry) (e : LogEntry),
      parseLine (JsonlLine.obj r) = some e → e = normalizeRaw r ∧ keepType r = true := by
    intro r e h
    have h' : (if keepType r then some (normalizeRaw r) else none) = some e := h
    by_cases hk : keepType r
    · rw [if_pos hk] at h'
      have : normalizeRaw r = e := by injection h'
      exact ⟨this.symm, hk⟩
    · rw [if_neg hk] at h'
      cases h'
  refine ⟨?_, parse_jsonl_malformed_skip, ?_, ?_, ?_⟩
  · induction lines with
    | nil => rfl
    | cons l ls ih =>
      cases l with
      | blank =>
        simp only [parse_jsonl_file, List.filterMap_cons] at ih ⊢
        simpa [parseLine, objOf] using ih
      | malformed =>
        simp only [parse_jsonl_file, List.filterMap_cons] at ih ⊢
        simpa [parseLine, objOf] using ih
      | obj r =>
        simp only [parse_jsonl_file, List.filterMap_cons] at ih ⊢
        by_cases hk : keepType r
        · simp [parseLine, objOf, hk, List.filter_cons, ih]
        · simp [parseLine, objOf, hk, List.filter_cons, ih]
  · intro e he
    unfold parse_jsonl_file at he
    rw [List.mem_filterMap] at he
    obtain ⟨l, _, hl⟩ := he
    cases l with
    | blank => cases hl
    | malformed => cases hl
    | obj r =>
      obtain ⟨he', hk⟩ := hline r e hl
      unfold keepType at hk
      rw [Bool.or_eq_true] at hk
      rcases hk with hk | hk
      · left
        rw [he']
        unfold normalizeRaw
        have : r.type = some "user" := by simpa using hk
        rw [this]
        rfl
      · right
        rw [he']
        unfold normalizeRaw
        have : r.type = some "assistant" := by simpa using hk
        rw [this]
        rfl
  · intro r h
    show (if keepType r then some (normalizeRaw r) else none) = none
    unfold keepType
    rw [h]
    rfl
  · intro r e h
    obtain ⟨he, _⟩ := hline r e h
    subst he
    exact ⟨rfl, rfl, rfl, rfl⟩

def c7Raw : RawEntry :=
  { type := some "user", timestamp := some "t1",
    message := some (Content.str "hi"), isCompactSummary := true }

/-- Witness for C7: a summary-typed line is dropped, and a retained line's
normalization preserves its fields, including the continuation marker. -/
theorem c7_jsonl_normalization_witness :
    parseLine (JsonlLine.obj { type := some "summary" }) = none ∧
    ((normalizeRaw c7Raw).isCompactSummary = c7Raw.isCompactSummary ∧
      (normalizeRaw c7Raw).type = c7Raw.type.getD "" ∧
      (normalizeRaw c7Raw).timestamp = c7Raw.timestamp.getD "" ∧
      (normalizeRaw c7Raw).message = c7Raw.message) :=
  ⟨(c7_jsonl_normalization []).2.2.2.1 { type := some "summary" } rfl,
   (c7_jsonl_normalization []).2.2.2.2 c7Raw (normalizeRaw c7Raw) (by decide)⟩

/-- The dict `parse_session_file` returns for the single-document JSON form
(`generate_html` reads its `loglines`). -/
structure SessionData where
  loglines : List LogEntry
deriving DecidableEq, Repr

/-- A session file as `parse_session_file` dispatches on it: a `.jsonl` file
(a list of physical lines) or a JSON document, where `none` stands for a
document on which `json.load` raises `json.JSONDecodeError`. -/
inductive SessionFile
  | jsonl (lines : List JsonlLine)
  | jsonDoc (doc : Option SessionData)
deriving DecidableEq, Repr

/-- `parse_session_file`: the `.jsonl` branch delegates to `_parse_jsonl_file`
(total); the JSON branch is a bare `json.load`, whose decode error propagates
to the caller, embedded as `Except.error`. -/
def parse_session_file : SessionFile → Except String SessionData
  | .jsonl lines => .ok ⟨parse_jsonl_file lines⟩
  | .jsonDoc none => .error "json.JSONDecodeError"
  | .jsonDoc (some d) => .ok d

/-- Claim C8, as stated, is false on the code: for the single-document JSON
form `parse_session_file` is a bare `json.load`, so a malformed JSON document
makes it raise `json.JSONDecodeError` rather than being skipped. -/
theorem c8_counterexample :
    parse_session_file (SessionFile.jsonDoc none)
      = Except.error "json.JSONDecodeError" := rfl

/-- Claim C8 (amended): in the line-delimited form a bad JSON line is skipped
with processing continuing and `parse_session_file` never raises; a well-formed
JSON document also succeeds; but a malformed single JSON document causes
`parse_session_file` to raise the decode error to its caller. -/
theorem c8_malformed_recovery (lines pre post : List JsonlLine)
    (d : SessionData) :
    parse_session_file (SessionFile.jsonl lines)
        = Except.ok { loglines := parse_jsonl_file lines }
    ∧ parse_jsonl_file (pre ++ JsonlLine.malformed :: post)
        = parse_jsonl_file pre ++ parse_jsonl_file post
    ∧ parse_session_file (SessionFile.jsonDoc (some d)) = Except.ok d
    ∧ parse_session_file (SessionFile.jsonDoc none)
        = Except.error "json.JSONDecodeError" :=
  ⟨rfl, parse_jsonl_malformed_skip pre post, rfl, rfl⟩

/-- A discovered `.jsonl` session file as `find_local_sessions` sees it:
`name` is the filename, `summary` stands for `get_session_summary(f)` (derived
from file content, an I/O step), `mtime` for `f.stat().st_mtime`. -/
structure SessFile where
  name : String
  summary : String
  mtime : Nat
deriving DecidableEq, Repr

/-- The comparison behind `results.sort(key=..st_mtime, reverse=True)`:
most-recent first. -/
def mtimeGe (a b : SessFile) : Bool := decide (b.mtime ≤ a.mtime)

/-- `find_local_sessions`: a missing folder yields `[]`; otherwise drop
`agent-`-prefixed files and warmup / placeholder-summary sessions, sort by
modification time most-recent first, and cap at `limit`. (`folder` is the
glob result, `none` when the folder does not exist.) -/
def find_local_sessions (folder : Option (List SessFile)) (limit : Nat) :
    List SessFile :=
  match folder with
  | none => []
  | some files =>
    let results := files.filter (fun f =>
      !(pyStartsWith f.name "agent-") &&
      !(pyLower f.summary == "warmup") &&
      !(f.summary == "(no summary)"))
    (ssort mtimeGe results).take limit

theorem mtimeGe_total (a b : SessFile) : mtimeGe a b = true ∨ mtimeGe b a = true := by
  rcases Nat.le_total b.mtime a.mtime with h | h
  · exact Or.inl (by simp [mtimeGe, h])
  · exact Or.inr (by simp [mtimeGe, h])

theorem mtimeGe_trans (a b c : SessFile) (h1 : mtimeGe a b = true)
    (h2 : mtimeGe b c = true) : mtimeGe a c = true := by
  simp only [mtimeGe, decide_eq_true_eq] at h1 h2 ⊢
  exact le_trans h2 h1

/-- Claim C9: a missing root yields an empty list, not an error; every
returned session is not `agent-`-prefixed, not the warmup marker
(case-insensitively) and not the empty-summary placeholder; the result is
ordered most-recently-modified first; and its length is capped at `limit`. -/
theorem c9_find_local_sessions (folder : Option (List SessFile)) (limit : Nat) :
    find_local_sessions none limit = []
    ∧ (∀ s ∈ find_local_sessions folder limit,
        pyStartsWith s.name "agent-" = false
        ∧ (pyLower s.summary == "warmup") = false
        ∧ (s.summary == "(no summary)") = false)
    ∧ (find_local_sessions folder limit).length ≤ limit
    ∧ (find_local_sessions folder limit).Pairwise
        (fun a b => b.mtime ≤ a.mtime) := by
  refine ⟨rfl, ?_, ?_, ?_⟩
  · intro s hs
    cases folder with
    | none => cases hs
    | some files =>
      unfold find_local_sessions at hs
      have hs2 := List.mem_of_mem_take hs
      rw [(ssort_perm mtimeGe _).mem_iff, List.mem_filter] at hs2
      have hcond := hs2.2
      simp only [Bool.and_eq_true, Bool.not_eq_true'] at hcond
      exact ⟨hcond.1.1, hcond.1.2, hcond.2⟩
  · cases folder with
    | none => simp [find_local_sessions]
    | some files =>
      unfold find_local_sessions
      exact List.length_take_le _ _
  · cases folder with
    | none => simp [find_local_sessions]
    | some files =>
      unfold find_local_sessions
      refine List.Pairwise.sublist (List.take_sublist _ _) ?_
      have := ssort_pairwise mtimeGe_total mtimeGe_trans
        (files.filter (fun f =>
          !(pyStartsWith f.name "agent-") &&
          !(pyLower f.summary == "warmup") &&
          !(f.summary == "(no summary)")))
      refine this.imp ?_
      intro a b h
      simpa [mtimeGe] using h

def c9File : SessFile := { name := "c.jsonl", summary := "Real session", mtime := 20 }

def c9Files : List SessFile :=
  [ { name := "agent-x.jsonl", summary := "Agent stuff", mtime := 50 },
    { name := "a.jsonl", summary := "Warmup", mtime := 40 },
    { name := "b.jsonl", summary := "(no summary)", mtime := 30 },
    c9File,
    { name := "d.jsonl", summary := "Another", mtime := 60 } ]

/-- Witness for C9: on the demo folder the retained session satisfies all
three exclusion checks. -/
theorem c9_find_local_sessions_witness :
    pyStartsWith c9File.name "agent-" = false
    ∧ (pyLower c9File.summary == "warmup") = false
    ∧ (c9File.summary == "(no summary)") = false :=
  (c9_find_local_sessions (some c9Files) 10).2.1 c9File (by decide)

/-- A session of the archive-merge engine (§3 of the spec): `stem` is the
filename stem identifying the session independent of extension or directory;
`summary`, `mtime` and `size` are the derived display metadata. The
`source_label` is not consulted by the merge and is omitted. -/
structure Session where
  stem : String
  summary : String
  mtime : Nat
  size : Nat
deriving DecidableEq, Repr

/-- A project of the archive-merge engine: name, nullable path (null for
archive-only projects) and its sessions. -/
structure Project where
  name : String
  path : Option String
  sessions : List Session
deriving DecidableEq, Repr

/-- Modelled from the spec: the per-project half of `merge_sessions` (the
batch/archive merge engine is part of this repository but not under `src/`;
only its tests call it). Spec §4.5: every fresh source session appears with the
fresh metadata, source wins on a stem collision, and archive sessions whose
stem is absent from the source ("orphans") are preserved with the
archive-derived metadata; sessions are deduplicated by filename stem. -/
def merge_project_sessions (source existing : List Session) : List Session :=
  source ++ existing.filter (fun e => !(source.any (fun s => s.stem == e.stem)))

/-- Modelled from the spec: `merge_sessions (source, existing) → merged`, a
pure function of the two project lists. Projects are merged by name; a project
absent from the fresh source but present in the archive is preserved
wholesale; within a merged project the sessions are merged per
`merge_project_sessions`. -/
def merge_sessions (source existing : List Project) : List Project :=
  source.map (fun p =>
    match existing.find? (fun q => q.name == p.name) with
    | some q => { name := p.name, path := p.path,
                  sessions := merge_project_sessions p.sessions q.sessions }
    | none => p)
  ++ existing.filter (fun q => !(source.any (fun p => p.name == q.name)))

def c6SourceSession : Session :=
  { stem := "abc123", summary := "Updated session", mtime := 200, size := 2000 }

def c6ArchiveSession : Session :=
  { stem := "abc123", summary := "Old session", mtime := 100, size := 1000 }

def c6Source : List Project :=
  [{ name := "project-a", path := some "/src/project-a",
     sessions := [c6SourceSession] }]

def c6Existing : List Project :=
  [{ name := "project-a", path := none, sessions := [c6ArchiveSession] }]

/-- Claim C6: the merge is a pure function of the two lists (it is a plain
function of them), safe with either side empty (empty archive returns the
source unchanged; empty source preserves the archive wholesale); every source
session appears in the result under its project's name with the source
metadata; an archive-only project is preserved; an orphaned archive session
(no stem collision with the source sessions of its project) is preserved with
the archive metadata; merged projects are deduplicated by stem; and the
override example keeps exactly the source session for stem `abc123`. -/
theorem c6_archive_merge (source existing : List Project) :
    merge_sessions source [] = source
    ∧ merge_sessions [] existing = existing
    ∧ (∀ p ∈ source, ∀ s ∈ p.sessions, ∃ p' ∈ merge_sessions source existing,
        p'.name = p.name ∧ s ∈ p'.sessions)
    ∧ (∀ q ∈ existing, (∀ p ∈ source, p.name ≠ q.name) →
        q ∈ merge_sessions source existing)
    ∧ (∀ p ∈ source, ∀ q,
        existing.find? (fun q' => q'.name == p.name) = some q →
        ∀ s ∈ q.sessions, (∀ s' ∈ p.sessions, s'.stem ≠ s.stem) →
        ∃ p' ∈ merge_sessions source existing, p'.name = p.name ∧ s ∈ p'.sessions)
    ∧ ((∀ p ∈ source, (p.sessions.map Session.stem).Nodup) →
       (∀ q ∈ existing, (q.sessions.map Session.stem).Nodup) →
       ∀ p' ∈ merge_sessions source existing,
         (p'.sessions.map Session.stem).Nodup)
    ∧ merge_sessions c6Source c6Existing
        = [{ name := "project-a", path := some "/src/project-a",
             sessions := [c6SourceSession] }] := by
  refine ⟨?_, ?_, ?_, ?_, ?_, ?_, by decide⟩
  · unfold merge_sessions
    simp [List.find?]
  · unfold merge_sessions
    simp [List.filter_eq_self]
  · intro p hp s hs
    cases hfind : existing.find? (fun q => q.name == p.name) with
    | none =>
      refine ⟨p, List.mem_append_left _ (List.mem_map.mpr ⟨p, hp, ?_⟩), rfl, hs⟩
      rw [hfind]
    | some q =>
      refine ⟨Project.mk p.name p.path
          (merge_project_sessions p.sessions q.sessions),
        List.mem_append_left _ (List.mem_map.mpr ⟨p, hp, ?_⟩), rfl,
        List.mem_append_left _ hs⟩
      rw [hfind]
  · intro q hq hnone
    refine List.mem_append_right _ (List.mem_filter.mpr ⟨hq, ?_⟩)
    simp only [Bool.not_eq_true', List.any_eq_false]
    intro p hp
    simpa using hnone p hp
  · intro p hp q hfind s hsq hnostem
    refine ⟨Project.mk p.name p.path
        (merge_project_sessions p.sessions q.sessions),
      List.mem_append_left _ (List.mem_map.mpr ⟨p, hp, ?_⟩), rfl,
      List.mem_append_right _ (List.mem_filter.mpr ⟨hsq, ?_⟩)⟩
    · rw [hfind]
    · simp only [Bool.not_eq_true', List.any_eq_false]
      intro s' hs'
      simpa using hnostem s' hs'
  · intro hsrc hex p' hp'
    rcases List.mem_append.mp hp' with h | h
    · rw [List.mem_map] at h
      obtain ⟨p, hp, hpeq⟩ := h
      cases hfind : existing.find? (fun q => q.name == p.name) with
      | none =>
        rw [hfind] at hpeq
        exact hpeq ▸ hsrc p hp
      | some q =>
        rw [hfind] at hpeq
        have hq : q ∈ existing := List.mem_of_find?_eq_some hfind
        subst hpeq
        show ((merge_project_sessions p.sessions q.sessions).map
          Session.stem).Nodup
        unfold merge_project_sessions
        rw [List.map_append]
        refine List.Nodup.append (hsrc p hp) ?_ ?_
        · refine List.Nodup.sublist ?_ (hex q hq)
          exact List.Sublist.map _ (List.filter_sublist _)
        · intro a ha1 ha2
          rw [List.mem_map] at ha1 ha2
          obtain ⟨s1, hs1, hs1a⟩ := ha1
          obtain ⟨s2, hs2, hs2a⟩ := ha2
          rw [List.mem_filter] at hs2
          have hcond := hs2.2
          simp only [Bool.not_eq_true', List.any_eq_false] at hcond
          have h2 : s1.stem ≠ s2.stem := by simpa using hcond s1 hs1
          exact h2 (hs1a.trans hs2a.symm)
    · exact hex p' (List.mem_of_mem_filter h)

def c6Orphan : Project :=
  { name := "project-b", path := none, sessions := [c6ArchiveSession] }

/-- Witness for C6: an empty archive returns the source unchanged, and a
project absent from the source is preserved wholesale. -/
theorem c6_archive_merge_witness :
    merge_sessions c6Source [] = c6Source ∧
    c6Orphan ∈ merge_sessions c6Source [c6Orphan] :=
  ⟨(c6_archive_merge c6Source c6Existing).1,
   (c6_archive_merge c6Source [c6Orphan]).2.2.2.1 c6Orphan (by decide)
     (by decide)⟩
